import Mathlib

/-!
Shallow embedding of the `te` editor core (`src/editor.rs`) and proofs about it.

Modelling conventions:
* `String` contents are modelled as `List Char`; one `Char` stands for one byte
  of the Rust string (exact for single-byte text, which is all the spec's
  arithmetic is about).
* Rust `u16` and `usize` values are modelled as `Nat`.  Every fallible
  operation of the source (unchecked `u16` subtraction/addition, unchecked
  `usize` subtraction, `String::insert`/`String::remove` index bounds) is made
  explicit: the operations return `Option Editor`, and `none` models a Rust
  panic (debug-mode arithmetic overflow/underflow or an out-of-bounds index).
  `saturating_sub` on `Nat` is truncated subtraction, which is exact.
  `usize` additions are modelled as exact `Nat` addition (a 64-bit overflow is
  unreachable for the quantities involved).
* `str::lines` is modelled by `Te.lines`: split on `'\n'` with an optional
  final terminator, then strip one trailing carriage return from each line,
  exactly as documented for Rust.
-/

namespace Te

/-- Checked subtraction: `none` models a Rust debug-build underflow panic of
an unchecked `-` on an unsigned integer. -/
def checkedSub (a b : Nat) : Option Nat :=
  if b ≤ a then some (a - b) else none

/-- Checked `u16` addition: `none` models a Rust debug-build overflow panic. -/
def u16add (a b : Nat) : Option Nat :=
  if a + b ≤ 65535 then some (a + b) else none

/-- Clamping conversion `usize -> u16`, modelling `try_into().unwrap_or(u16::MAX)`. -/
def u16clamp (a : Nat) : Nat := min a 65535

/-- Editor modes, from `enum EditorMode` in `src/editor.rs`. -/
inductive EditorMode
  | Navigate
  | Edit
deriving DecidableEq

/-- Size of the rendering surface, from `struct DisplaySize` (`u16` fields). -/
structure DisplaySize where
  columns : Nat
  rows : Nat
deriving DecidableEq

/-- Document-relative offset of the viewport, from `struct DisplayPosition`
(`usize` fields).  The spec calls this `ViewportOffset`. -/
structure DisplayPosition where
  column : Nat
  row : Nat
deriving DecidableEq

/-- Screen-relative cursor position, from `struct CursorPosition` (`u16` fields). -/
structure CursorPosition where
  column : Nat
  row : Nat
deriving DecidableEq

/-- Movement directions, from `enum CursorMovement`. -/
inductive CursorMovement
  | Left
  | Right
  | Up
  | Down

/-- The editor state, from `struct Editor` in `src/editor.rs`.  A `PathBuf` is
modelled as a list of characters. -/
structure Editor where
  path : Option (List Char)
  contents : List Char
  cursor : CursorPosition
  display_size : DisplaySize
  display_position : DisplayPosition
  mode : EditorMode
deriving DecidableEq

/-- Strip a single trailing carriage return, as `str::lines` does to each
`split_terminator('\n')` piece. -/
def stripCR (l : List Char) : List Char :=
  if l.getLast? = some '\x0d' then l.dropLast else l

/-- Model of Rust `str::split_terminator('\n')`: split at every `'\n'`, the
final terminator being optional (so the empty string yields no lines). -/
def splitTerm : List Char → List (List Char)
  | [] => []
  | c :: rest =>
    if c = '\n' then [] :: splitTerm rest
    else
      match splitTerm rest with
      | [] => [[c]]
      | l :: ls => (c :: l) :: ls

/-- Model of Rust `str::lines()`. -/
def lines (s : List Char) : List (List Char) :=
  (splitTerm s).map stripCR

/-- Model of `Editor::new`: mirrors the `Default` values of the Rust struct
(`DisplaySize` defaults to 80x24, everything else to zero / `None` /
`Navigate`). -/
def Editor.new (s : List Char) : Editor :=
  { path := none
    contents := s
    cursor := ⟨0, 0⟩
    display_size := ⟨80, 24⟩
    display_position := ⟨0, 0⟩
    mode := EditorMode.Navigate }

/-- Model of `Editor::row_length`: the length of the line at
`display_position.row + cursor.row`, or `0` when that line does not exist. -/
def row_length (e : Editor) : Nat :=
  (((lines e.contents)[e.display_position.row + e.cursor.row]?).map List.length).getD 0

/-- Model of `Editor::cursor_index`: the sum of `line length + 1` over the
first `cursor.row + display_position.row` lines, plus `cursor.column`. -/
def cursor_index (e : Editor) : Nat :=
  (((lines e.contents).take (e.cursor.row + e.display_position.row)).map
      (fun s => s.length + 1)).sum
    + e.cursor.column

/-- Value of the `last_column` local of the `Right` arm of
`Editor::move_cursor`: the rightmost permissible absolute column,
`row_length()` in `Edit` mode and `row_length().saturating_sub(1)` otherwise. -/
def last_column (e : Editor) : Nat :=
  match e.mode with
  | EditorMode.Edit => row_length e
  | _ => row_length e - 1  -- saturating_sub(1)

/-- Model of `Editor::move_cursor`.  `none` models a panic. -/
def move_cursor (e : Editor) (direction : CursorMovement) : Option Editor :=
  match direction with
  | CursorMovement.Left =>
    -- `checked_sub(1)` on the cursor column; on `None`, `saturating_sub(1)`
    -- on the display column.
    match e.cursor.column with
    | Nat.succ c => some { e with cursor := ⟨c, e.cursor.row⟩ }
    | 0 =>
      some { e with display_position :=
        ⟨e.display_position.column - 1, e.display_position.row⟩ }
  | CursorMovement.Right =>
    let canMoveRight :=
      e.display_position.column + e.cursor.column < last_column e
    -- `self.display_size.columns - 1` is an unchecked u16 subtraction.
    match checkedSub e.display_size.columns 1 with
    | none => none
    | some cm1 =>
      let atRightOfDisplay := e.cursor.column = cm1
      if canMoveRight then
        if atRightOfDisplay then
          some { e with display_position :=
            ⟨e.display_position.column + 1, e.display_position.row⟩ }
        else
          -- `self.cursor.column + 1` is an unchecked u16 addition.
          match u16add e.cursor.column 1 with
          | none => none
          | some c1 => some { e with cursor := ⟨c1, e.cursor.row⟩ }
      else
        some e
  | CursorMovement.Up =>
    let e1 :=
      match e.cursor.row with
      | Nat.succ r => { e with cursor := ⟨e.cursor.column, r⟩ }
      | 0 =>
        { e with display_position :=
          ⟨e.display_position.column, e.display_position.row - 1⟩ }
    let e2 := { e1 with display_position :=
      ⟨min e1.display_position.column (row_length e1), e1.display_position.row⟩ }
    -- `self.row_length() - self.display_position.column` is an unchecked
    -- usize subtraction.
    match checkedSub (row_length e2) e2.display_position.column with
    | none => none
    | some d =>
      some { e2 with cursor := ⟨min e2.cursor.column (u16clamp d), e2.cursor.row⟩ }
  | CursorMovement.Down =>
    let numLines := ((lines e.contents).drop e.display_position.row).length
    -- `self.cursor.row + 1` is an unchecked u16 addition.
    match u16add e.cursor.row 1 with
    | none => none
    | some r1 =>
      let canMoveDown := r1 < u16clamp numLines
      let atBottomOfDisplay := e.display_size.rows = r1
      let e1 :=
        if canMoveDown then
          if atBottomOfDisplay then
            { e with display_position :=
              ⟨e.display_position.column, e.display_position.row + 1⟩ }
          else
            { e with cursor := ⟨e.cursor.column, r1⟩ }
        else e
      let e2 := { e1 with display_position :=
        ⟨min e1.display_position.column (row_length e1), e1.display_position.row⟩ }
      match checkedSub (row_length e2) e2.display_position.column with
      | none => none
      | some d =>
        some { e2 with cursor := ⟨min e2.cursor.column (u16clamp d), e2.cursor.row⟩ }

/-- Model of `Editor::insert`.  `String::insert` panics when the index is past
the end of the buffer; the u16 cursor increments are unchecked. -/
def insert (e : Editor) (c : Char) : Option Editor :=
  let i := cursor_index e
  if i ≤ e.contents.length then
    let contents' := e.contents.insertIdx i c
    if c = '\n' then
      match u16add e.cursor.row 1 with
      | none => none
      | some r1 => some { e with contents := contents', cursor := ⟨0, r1⟩ }
    else
      match u16add e.cursor.column 1 with
      | none => none
      | some c1 => some { e with contents := contents', cursor := ⟨c1, e.cursor.row⟩ }
  else none

/-- Model of `Editor::remove`.  `String::remove` panics when the index is not
below the buffer length; `self.cursor.row - 1` and `self.cursor.column - 1`
are unchecked u16 subtractions and
`self.row_length() - current_length` is an unchecked usize subtraction. -/
def remove (e : Editor) : Option Editor :=
  match checkedSub (cursor_index e) 1 with
  | none => some e
  | some idx =>
    if _h : idx < e.contents.length then
      let currentLength := row_length e
      let removed := e.contents[idx]!
      let e1 := { e with contents := e.contents.eraseIdx idx }
      if removed = '\n' then
        match checkedSub e1.cursor.row 1 with
        | none => none
        | some r1 =>
          let e2 := { e1 with cursor := ⟨e1.cursor.column, r1⟩ }
          match checkedSub (row_length e2) currentLength with
          | none => none
          | some d =>
            some { e2 with cursor := ⟨u16clamp d, e2.cursor.row⟩ }
      else
        match checkedSub e1.cursor.column 1 with
        | none => none
        | some c1 => some { e1 with cursor := ⟨c1, e1.cursor.row⟩ }
    else none

/-- Model of `Editor::set_display_columns`. -/
def set_display_columns (e : Editor) (c : Nat) : Editor :=
  { e with
    display_size := ⟨c, e.display_size.rows⟩
    display_position := ⟨min e.display_position.column c, e.display_position.row⟩ }

/-- Model of `Editor::set_display_rows`. -/
def set_display_rows (e : Editor) (r : Nat) : Editor :=
  { e with
    display_size := ⟨e.display_size.columns, r⟩
    display_position := ⟨e.display_position.column, min e.display_position.row r⟩ }

/-- Pure projection of the painting loop of `Editor::render`: for each of up
to `display_size.rows` lines starting at `display_position.row`, the text
written at that screen row — `some` slice when `line.get(dcol..)` succeeds
(further truncated through `get(..columns)` exactly as in the source), `none`
when nothing is written for that line. -/
def renderLines (e : Editor) : List (Option (List Char)) :=
  (((lines e.contents).drop e.display_position.row).take e.display_size.rows).map
    (fun line =>
      if e.display_position.column ≤ line.length then
        let s := line.drop e.display_position.column
        if e.display_size.columns ≤ s.length then some (s.take e.display_size.columns)
        else some s
      else none)

/-- Errors from `src/errors.rs` (payloads irrelevant to the claims are dropped). -/
inductive EditorError
  | FileIo
  | TermIo
  | DirectoryDoesNotExist
  | CannotOpenRoot
deriving DecidableEq

/-- Model of `Editor::from_path`.  The filesystem probes are passed in as
data: `parentExists` is `file.parent().map(|d| d.exists())`, and `file` is
`none` when the target does not exist, `some (.error ())` when opening or
reading it fails, and `some (.ok cs)` when it reads contents `cs`.  Exactly as
in the source, the success case returns `Editor.new` — which leaves the
`path` field `none`. -/
def from_path (parentExists : Option Bool) (file : Option (Except Unit (List Char))) :
    Except EditorError Editor :=
  match parentExists with
  | some true =>
    match file with
    | none => Except.ok (Editor.new [])
    | some (Except.error _) => Except.error EditorError.FileIo
    | some (Except.ok cs) => Except.ok (Editor.new cs)
  | some false => Except.error EditorError.DirectoryDoesNotExist
  | none => Except.error EditorError.CannotOpenRoot

/-- Model of `Editor::write` (save).  `self.path.as_ref().unwrap()` panics when
the `path` field is `None` (modelled by `none`); otherwise the function
requests that `contents` be written to `path`, modelled by returning the pair. -/
def write (e : Editor) : Option (List Char × List Char) :=
  e.path.map (fun p => (p, e.contents))

/-- Iterated cursor movement in one fixed direction; `none` once any step
panics. -/
def moveN (d : CursorMovement) : Nat → Editor → Option Editor
  | 0, e => some e
  | n + 1, e => (move_cursor e d).bind (moveN d n)

/-- Modelled from the spec (claim C2): the claimed cursor index, the sum of
`line length + 1` over every line strictly before the absolute row
`ViewportOffset.row + CursorPosition.row`, plus the absolute column
`ViewportOffset.column + CursorPosition.column`. -/
def spec_cursor_index_absolute (e : Editor) : Nat :=
  (((lines e.contents).take (e.display_position.row + e.cursor.row)).map
      (fun l => l.length + 1)).sum
    + (e.display_position.column + e.cursor.column)

/-- Modelled from the spec (claim C9): the text painted for one document line,
sliced from character `ViewportOffset.column` (nothing drawn for a line whose
length is less than that offset) and truncated to at most
`DisplaySize.columns` characters. -/
def spec_rendered_row (e : Editor) (line : List Char) : Option (List Char) :=
  if line.length < e.display_position.column then none
  else some ((line.drop e.display_position.column).take e.display_size.columns)

/-- Editor state exhibiting claim C2's failure: the viewport is scrolled one
column right, so the absolute column is 1 while `cursor_index` still reports 0. -/
def c2ex : Editor :=
  { Editor.new ['a', 'b', 'c'] with display_position := ⟨1, 0⟩ }

/-- Editor state reached from `Editor::new("a\nb")` after
`set_display_rows(1)` and one `Down` move: the viewport has scrolled
(`display_position.row = 1`) while the screen cursor sits at row 0. -/
def c3_reached : Editor :=
  { Editor.new ['a', '\n', 'b'] with display_size := ⟨80, 1⟩, display_position := ⟨0, 1⟩ }

/-- Editor state of the C8 scenario: document `"1\n2\n3\n4\n5"`, display rows
set to 3, cursor at screen row 2, viewport row 0. -/
def c8_start : Editor :=
  { set_display_rows (Editor.new ['1', '\n', '2', '\n', '3', '\n', '4', '\n', '5']) 3 with
    cursor := ⟨0, 2⟩ }

/-- Editor with contents `"ab"` and cursor at column 2, used to witness the
non-trivial branch of claim C7. -/
def c7E : Editor :=
  { Editor.new ['a', 'b'] with cursor := ⟨2, 0⟩ }

/-- Result of `remove` on `c7E`: the `'b'` before the cursor index is gone and
the cursor moved back one column. -/
def c7E' : Editor :=
  { Editor.new ['a', 'b'] with contents := ['a'], cursor := ⟨1, 0⟩ }

/-- Editor with document `"...\n...\n..."` and cursor at `(1, 1)` (the state
used by the repository's own movement tests), used to witness claim C10. -/
def c10E : Editor :=
  { Editor.new ['.', '.', '.', '\n', '.', '.', '.', '\n', '.', '.', '.'] with cursor := ⟨1, 1⟩ }

/-- Result of moving right from `c10E`. -/
def c10E' : Editor :=
  { c10E with cursor := ⟨2, 1⟩ }

/-- Invariant maintained by `Right` moves started from a freshly constructed
editor: the document, mode, rows and display size never change, the screen
column stays inside the default 80-column display, and the absolute column
never exceeds `last_column`. -/
def RightInv (s : List Char) (m : EditorMode) (e : Editor) : Prop :=
  e.contents = s ∧ e.mode = m ∧ e.cursor.row = 0 ∧ e.display_position.row = 0 ∧
    e.display_size = ⟨80, 24⟩ ∧ e.cursor.column ≤ 79 ∧
    e.display_position.column + e.cursor.column ≤ last_column e

/-- Reachable editor state whose document contains a CRLF line ending:
obtained from `Editor::from_path` on a file reading `"ab\r\ncd"` followed by
one `Down` move.  Used as the C4 counterexample. -/
def c4ex : Editor :=
  { Editor.new ['a', 'b', '\x0d', '\n', 'c', 'd'] with cursor := ⟨0, 1⟩ }

/-- State produced by insert-then-remove from `c4ex`: the buffer has been
corrupted to `"ab\rx\nd"` even though the cursor is back where it started. -/
def c4ex' : Editor :=
  { c4ex with contents := ['a', 'b', '\x0d', 'x', '\n', 'd'] }

/-- Editor with contents `"ab\ncd"` and cursor at column 1 of the first line,
used to witness the amended C4. -/
def c4wE : Editor :=
  { Editor.new ['a', 'b', '\n', 'c', 'd'] with cursor := ⟨1, 0⟩ }

/-- Byte offset of the start of line `r` in the raw (`splitTerm`) line
decomposition: the sum of `length + 1` over the lines before `r`. -/
def rawStart (s : List Char) (r : Nat) : Nat :=
  (((splitTerm s).take r).map (fun l => l.length + 1)).sum

/-- Raw length of line `r` of `s` (0 when there is no such line). -/
def rawLen (s : List Char) (r : Nat) : Nat :=
  (((splitTerm s)[r]?).map List.length).getD 0

/-- Offset of the start of line `r` as `cursor_index` computes it, i.e. using
the CR-stripped `lines` decomposition. -/
def lineStart (s : List Char) (r : Nat) : Nat :=
  (((lines s).take r).map (fun l => l.length + 1)).sum

/-- Length of line `r` of `s` as `row_length` reports it (0 when there is no
such line). -/
def lineLen (s : List Char) (r : Nat) : Nat :=
  (((lines s)[r]?).map List.length).getD 0

/-- Cursor validity: the document is free of carriage returns, the `u16`
cursor coordinates have room to be incremented, and the cursor addresses a
real position — the absolute row names an existing line and the column is at
most that line's length, or the cursor sits at the insertion point past a
newline-terminated (or empty) document. -/
def ValidCursor (e : Editor) : Prop :=
  '\x0d' ∉ e.contents ∧
    e.cursor.column + 1 ≤ 65535 ∧ e.cursor.row + 1 ≤ 65535 ∧
    ((e.cursor.row + e.display_position.row < (lines e.contents).length ∧
        e.cursor.column ≤ lineLen e.contents (e.cursor.row + e.display_position.row)) ∨
      (e.cursor.row + e.display_position.row = (lines e.contents).length ∧
        e.cursor.column = 0 ∧
        (e.contents = [] ∨ e.contents.getLast? = some '\n')))

instance (e : Editor) : Decidable (ValidCursor e) := by
  unfold ValidCursor
  infer_instance

/-- C1: the claim says a later `save()` writes the current contents to the
originally supplied path and surfaces filesystem failures as `FileIo` errors.
In the code, every editor successfully constructed by `from_path` has its
`path` field equal to `None` (construction ends in `Self::new`), so `write`
hits `self.path.as_ref().unwrap()` and panics (modelled by `none`) instead of
ever writing the file. -/
theorem c1_save_after_from_path_panics (pe : Option Bool)
    (f : Option (Except Unit (List Char))) (e : Editor)
    (h : from_path pe f = Except.ok e) : write e = none := by
  cases pe with
  | none => simp [from_path] at h
  | some b =>
    cases b with
    | false => simp [from_path] at h
    | true =>
      cases f with
      | none =>
        simp only [from_path, Except.ok.injEq] at h
        subst h; rfl
      | some r =>
        cases r with
        | error u => simp [from_path] at h
        | ok cs =>
          simp only [from_path, Except.ok.injEq] at h
          subst h; rfl

/-- Witness for C1 at a concrete input: opening an existing file reading
`"hi"` in an existing directory succeeds, and saving the resulting editor
panics. -/
theorem c1_witness : write (Editor.new ['h', 'i']) = none :=
  c1_save_after_from_path_panics (some true) (some (Except.ok ['h', 'i']))
    (Editor.new ['h', 'i']) rfl

/-- C2 counterexample: with document `"abc"`, screen cursor `(0, 0)` and the
viewport scrolled one column right, the claimed formula (which adds the
absolute column `ViewportOffset.column + CursorPosition.column`) gives 1, but
`cursor_index` gives 0. -/
theorem c2_counterexample : cursor_index c2ex ≠ spec_cursor_index_absolute c2ex := by
  decide

/-- C2 amended: `cursor_index()` sums `line length + 1` over every line
strictly before the absolute row and then adds only the screen column
`CursorPosition.column`; the viewport column offset is left out, so the
claimed absolute-column formula exceeds it by exactly
`ViewportOffset.column`. -/
theorem c2_amended (e : Editor) :
    cursor_index e =
      (((lines e.contents).take (e.display_position.row + e.cursor.row)).map
          (fun l => l.length + 1)).sum + e.cursor.column ∧
    cursor_index e + e.display_position.column = spec_cursor_index_absolute e := by
  constructor
  · simp [cursor_index, Nat.add_comm]
  · simp [cursor_index, spec_cursor_index_absolute, Nat.add_comm]
    omega

/-- C3: the claim says no cursor/edit operation panics because every
subtraction near zero saturates or is guarded.  But `remove()` decrements
`self.cursor.row` with an unchecked `u16` subtraction: from
`Editor::new("a\nb")` with one display row, a single `Down` move scrolls the
viewport (screen row stays 0), and `remove` then erases the `'\n'` and
underflows `cursor.row - 1` — a panic, modelled by `none`. -/
theorem c3_remove_row_underflow :
    move_cursor (set_display_rows (Editor.new ['a', '\n', 'b']) 1) CursorMovement.Down =
      some c3_reached ∧
    remove c3_reached = none := by
  decide

/-- C8: with document `"1\n2\n3\n4\n5"`, three display rows, cursor at screen
row 2 and viewport row 0, a `Down` move scrolls the viewport row offset to 1
while the screen cursor stays at row 2 (and column 0). -/
theorem c8_down_scrolls_viewport :
    move_cursor c8_start CursorMovement.Down =
      some { c8_start with display_position := ⟨0, 1⟩ } ∧
    c8_start.display_position.row = 0 ∧ c8_start.cursor.row = 2 := by
  decide

/-- C6: a sequence of `n` Left moves never panics, never changes either row,
and decrements the screen column to its floor of 0 before decrementing the
viewport column offset towards its floor of 0 (truncated subtraction — no
underflow). -/
theorem c6_left_floors_and_keeps_row (e : Editor) (n : Nat) :
    moveN CursorMovement.Left n e =
      some { e with
        cursor := ⟨e.cursor.column - n, e.cursor.row⟩
        display_position :=
          ⟨e.display_position.column - (n - e.cursor.column), e.display_position.row⟩ } := by
  induction n generalizing e with
  | zero => simp [moveN]
  | succ n ih =>
    cases hc : e.cursor.column with
    | zero =>
      simp only [moveN, move_cursor, hc, Option.bind_eq_bind, Option.some_bind, ih]
      simp [hc]
      try omega
    | succ c =>
      simp only [moveN, move_cursor, hc, Option.bind_eq_bind, Option.some_bind, ih]
      simp [hc, Nat.succ_sub_succ]
      try omega

/-- C7: `remove()` leaves the whole editor unchanged exactly when the cursor
index is 0 (in particular on the empty document), and whenever it completes
with a non-zero cursor index it has erased precisely the character immediately
before that index. -/
theorem c7_remove_characterisation (e e' : Editor) :
    (cursor_index e = 0 → remove e = some e) ∧
    remove (Editor.new []) = some (Editor.new []) ∧
    (remove e = some e' → cursor_index e ≠ 0 →
      e'.contents = e.contents.eraseIdx (cursor_index e - 1)) := by
  refine ⟨?_, by decide, ?_⟩
  · intro h
    have hnone : checkedSub (cursor_index e) 1 = none := by
      rw [h]
      decide
    simp only [remove, hnone]
  · intro h hne
    unfold remove at h
    cases hci : cursor_index e with
    | zero => exact absurd hci hne
    | succ idx =>
      have hsome : checkedSub (cursor_index e) 1 = some idx := by
        rw [hci]
        simp [checkedSub]
      rw [hsome] at h
      simp only at h
      split at h
      · repeat' split at h
        all_goals
          first
            | exact Option.noConfusion h
            | (injection h with h; subst h; simp)
      · simp at h

/-- Witness for C7 at concrete inputs: on the empty document `remove` is the
identity, and on `"ab"` with the cursor at column 2 it erases the `'b'` at
index 1. -/
theorem c7_witness :
    remove (Editor.new []) = some (Editor.new []) ∧
    c7E'.contents = c7E.contents.eraseIdx (cursor_index c7E - 1) :=
  ⟨(c7_remove_characterisation (Editor.new []) (Editor.new [])).1 (by decide),
   (c7_remove_characterisation c7E c7E').2.2 (by decide) (by decide)⟩

/-- C10: whenever `move_cursor` completes, in any direction, it has modified
only the cursor and viewport offset: the document contents, the mode, the
stored path and the display size are untouched. -/
theorem c10_move_cursor_frame (e : Editor) (d : CursorMovement) (e' : Editor)
    (h : move_cursor e d = some e') :
    e'.contents = e.contents ∧ e'.mode = e.mode ∧ e'.path = e.path ∧
      e'.display_size = e.display_size := by
  cases d <;> unfold move_cursor at h <;> simp only at h <;>
    (repeat' split at h) <;> simp_all <;> subst h <;> simp

/-- Right moves preserve `last_column`: the mode, the absolute row and the
contents are untouched by the `Right` arm's updates. -/
theorem last_column_update_column (e : Editor) (c d : Nat) :
    last_column { e with cursor := ⟨c, e.cursor.row⟩ } = last_column e ∧
    last_column { e with display_position := ⟨d, e.display_position.row⟩ } = last_column e := by
  constructor <;> simp [last_column, row_length]

/-- One `Right` move from a state satisfying `RightInv` succeeds and
re-establishes `RightInv`. -/
theorem rightInv_step (s : List Char) (m : EditorMode) (e : Editor)
    (hI : RightInv s m e) :
    ∃ e', move_cursor e CursorMovement.Right = some e' ∧ RightInv s m e' := by
  obtain ⟨hs, hm, hrow, hdrow, hds, hcol, habs⟩ := hI
  have hcols : e.display_size.columns = 80 := by rw [hds]
  have h79 : checkedSub e.display_size.columns 1 = some 79 := by rw [hcols]; decide
  by_cases hcan : e.display_position.column + e.cursor.column < last_column e
  · by_cases hat : e.cursor.column = 79
    · refine ⟨{ e with display_position :=
        ⟨e.display_position.column + 1, e.display_position.row⟩ }, ?_, ?_⟩
      · simp only [move_cursor, h79]
        rw [if_pos hcan, if_pos hat]
      · refine ⟨hs, hm, hrow, hdrow, hds, hcol, ?_⟩
        rw [(last_column_update_column e e.cursor.column (e.display_position.column + 1)).2]
        show e.display_position.column + 1 + e.cursor.column ≤ last_column e
        omega
    · have hadd : u16add e.cursor.column 1 = some (e.cursor.column + 1) := by
        simp only [u16add, if_pos (by omega : e.cursor.column + 1 ≤ 65535)]
      refine ⟨{ e with cursor := ⟨e.cursor.column + 1, e.cursor.row⟩ }, ?_, ?_⟩
      · simp only [move_cursor, h79]
        rw [if_pos hcan, if_neg hat, hadd]
      · refine ⟨hs, hm, hrow, hdrow, hds, ?_, ?_⟩
        · show e.cursor.column + 1 ≤ 79
          omega
        · rw [(last_column_update_column e (e.cursor.column + 1) e.display_position.column).1]
          show e.display_position.column + (e.cursor.column + 1) ≤ last_column e
          omega
  · refine ⟨e, ?_, ⟨hs, hm, hrow, hdrow, hds, hcol, habs⟩⟩
    simp only [move_cursor, h79]
    rw [if_neg hcan]

/-- Any number of `Right` moves from a state satisfying `RightInv` succeeds
and lands in a state satisfying `RightInv`. -/
theorem rightInv_moveN (s : List Char) (m : EditorMode) (n : Nat) (e : Editor)
    (hI : RightInv s m e) :
    ∃ e', moveN CursorMovement.Right n e = some e' ∧ RightInv s m e' := by
  induction n generalizing e with
  | zero => exact ⟨e, rfl, hI⟩
  | succ n ih =>
    obtain ⟨e1, h1, hI1⟩ := rightInv_step s m e hI
    obtain ⟨e2, h2, hI2⟩ := ih e1 hI1
    exact ⟨e2, by simp [moveN, h1, h2], hI2⟩

/-- C5: for every document and every number of Right moves from a fresh
editor in either mode, no step panics and the absolute cursor column
(`ViewportOffset.column + CursorPosition.column`) never exceeds
`row_length()` in Edit mode, nor `row_length() - 1` (truncated at 0, so
column 0 on an empty line) in Navigate mode. -/
theorem c5_right_moves_bounded (s : List Char) (m : EditorMode) (n : Nat) :
    ∃ e', moveN CursorMovement.Right n { Editor.new s with mode := m } = some e' ∧
      e'.display_position.column + e'.cursor.column ≤
        (match m with
         | EditorMode.Edit => row_length e'
         | _ => row_length e' - 1) := by
  have hI : RightInv s m { Editor.new s with mode := m } := by
    refine ⟨rfl, rfl, rfl, rfl, rfl, by simp [Editor.new], ?_⟩
    simp [Editor.new, Nat.zero_le]
  obtain ⟨e', h, hI'⟩ := rightInv_moveN s m n _ hI
  refine ⟨e', h, ?_⟩
  have hb := hI'.2.2.2.2.2.2
  have hm : e'.mode = m := hI'.2.1
  rw [last_column, hm] at hb
  exact hb

/-- C9: the renderer paints up to `DisplaySize.rows` consecutive lines
starting at line `ViewportOffset.row`; screen row `i` shows line
`ViewportOffset.row + i` sliced from character `ViewportOffset.column`
(nothing drawn when the line is shorter than that offset) and truncated to at
most `DisplaySize.columns` characters. -/
theorem c9_render_characterisation (e : Editor) (i : Nat) :
    (renderLines e)[i]? =
      if i < e.display_size.rows then
        ((lines e.contents)[e.display_position.row + i]?).map (spec_rendered_row e)
      else none := by
  unfold renderLines
  by_cases hi : i < e.display_size.rows
  · rw [if_pos hi, List.getElem?_map, List.getElem?_take_of_lt hi, List.getElem?_drop]
    cases hl : (lines e.contents)[e.display_position.row + i]? with
    | none => rfl
    | some line =>
      simp only [Option.map_some']
      congr 1
      show (if e.display_position.column ≤ line.length then
          let s := line.drop e.display_position.column
          if e.display_size.columns ≤ s.length then some (s.take e.display_size.columns)
          else some s
        else none) = spec_rendered_row e line
      unfold spec_rendered_row
      by_cases hc : e.display_position.column ≤ line.length
      · have hnc : ¬(line.length < e.display_position.column) := by omega
        rw [if_pos hc, if_neg hnc]
        show (if e.display_size.columns ≤ (line.drop e.display_position.column).length
            then some ((line.drop e.display_position.column).take e.display_size.columns)
            else some (line.drop e.display_position.column))
          = some ((line.drop e.display_position.column).take e.display_size.columns)
        by_cases h2 : e.display_size.columns ≤ (line.drop e.display_position.column).length
        · rw [if_pos h2]
        · rw [if_neg h2, List.take_of_length_le (by omega)]
      · have hpos : line.length < e.display_position.column := by omega
        rw [if_neg hc, if_pos hpos]
  · rw [if_neg hi]
    apply List.getElem?_eq_none
    have h1 : (((lines e.contents).drop e.display_position.row).take
        e.display_size.rows).length ≤ e.display_size.rows := by
      simp [List.length_take]
    rw [List.length_map]
    omega

/-- Witness for C10: a Right move on the repository's own test document
changes only the cursor. -/
theorem c10_witness :
    c10E'.contents = c10E.contents ∧ c10E'.mode = c10E.mode ∧
      c10E'.path = c10E.path ∧ c10E'.display_size = c10E.display_size :=
  c10_move_cursor_frame c10E CursorMovement.Right c10E' (by decide)

theorem splitTerm_newline_cons (t : List Char) :
    splitTerm ('\n' :: t) = [] :: splitTerm t := by
  simp [splitTerm]

theorem splitTerm_cons_of_eq_nil {c : Char} {t : List Char} (hc : c ≠ '\n')
    (h : splitTerm t = []) : splitTerm (c :: t) = [[c]] := by
  simp [splitTerm, hc, h]

theorem splitTerm_cons_of_eq_cons {c : Char} {t l : List Char} {ls : List (List Char)}
    (hc : c ≠ '\n') (h : splitTerm t = l :: ls) :
    splitTerm (c :: t) = (c :: l) :: ls := by
  simp [splitTerm, hc, h]

theorem splitTerm_eq_nil_iff {s : List Char} : splitTerm s = [] ↔ s = [] := by
  cases s with
  | nil => simp [splitTerm]
  | cons c t =>
    simp only [splitTerm]
    split
    · simp
    · split <;> simp

theorem mem_of_mem_splitTerm {c : Char} {s : List Char} :
    ∀ {l : List Char}, l ∈ splitTerm s → c ∈ l → c ∈ s := by
  induction s with
  | nil => intro l hl _; simp [splitTerm] at hl
  | cons a t ih =>
    intro l hl hc
    by_cases ha : a = '\n'
    · subst ha
      rw [splitTerm_newline_cons] at hl
      rcases List.mem_cons.mp hl with h | h
      · subst h; simp at hc
      · exact List.mem_cons_of_mem _ (ih h hc)
    · cases hsp : splitTerm t with
      | nil =>
        rw [splitTerm_cons_of_eq_nil ha hsp] at hl
        simp at hl
        subst hl
        simp at hc
        simp [hc]
      | cons l0 ls =>
        rw [splitTerm_cons_of_eq_cons ha hsp] at hl
        rcases List.mem_cons.mp hl with h | h
        · subst h
          rcases List.mem_cons.mp hc with h' | h'
          · simp [h']
          · exact List.mem_cons_of_mem _
              (ih (by rw [hsp]; exact List.mem_cons_self _ _) h')
        · exact List.mem_cons_of_mem _
            (ih (by rw [hsp]; exact List.mem_cons_of_mem _ h) hc)

theorem stripCR_of_no_cr {l : List Char} (h : '\x0d' ∉ l) : stripCR l = l := by
  unfold stripCR
  split
  · next heq => exact absurd (List.mem_of_mem_getLast? heq) h
  · rfl

theorem lines_eq_splitTerm {s : List Char} (h : '\x0d' ∉ s) :
    lines s = splitTerm s := by
  unfold lines
  have hall : ∀ l ∈ splitTerm s, stripCR l = l := fun l hl =>
    stripCR_of_no_cr (fun hc => h (mem_of_mem_splitTerm hl hc))
  calc (splitTerm s).map stripCR = (splitTerm s).map id := List.map_eq_map_iff.mpr hall
    _ = splitTerm s := List.map_id _

theorem rawStart_zero (s : List Char) : rawStart s 0 = 0 := by
  simp [rawStart]

theorem rawStart_newline_cons_succ (t : List Char) (r : Nat) :
    rawStart ('\n' :: t) (r + 1) = rawStart t r + 1 := by
  simp [rawStart, splitTerm_newline_cons, List.take_succ_cons]
  omega

theorem rawLen_newline_cons_zero (t : List Char) : rawLen ('\n' :: t) 0 = 0 := by
  simp [rawLen, splitTerm_newline_cons]

theorem rawLen_newline_cons_succ (t : List Char) (r : Nat) :
    rawLen ('\n' :: t) (r + 1) = rawLen t r := by
  simp [rawLen, splitTerm_newline_cons]

theorem rawStart_cons_succ {c : Char} {t l : List Char} {ls : List (List Char)}
    (hc : c ≠ '\n') (h : splitTerm t = l :: ls) (r : Nat) :
    rawStart (c :: t) (r + 1) = rawStart t (r + 1) + 1 := by
  simp [rawStart, splitTerm_cons_of_eq_cons hc h, h, List.take_succ_cons]
  omega

theorem rawLen_cons_zero {c : Char} {t l : List Char} {ls : List (List Char)}
    (hc : c ≠ '\n') (h : splitTerm t = l :: ls) :
    rawLen (c :: t) 0 = l.length + 1 := by
  simp [rawLen, splitTerm_cons_of_eq_cons hc h]

theorem rawLen_cons_succ {c : Char} {t l : List Char} {ls : List (List Char)}
    (hc : c ≠ '\n') (h : splitTerm t = l :: ls) (r : Nat) :
    rawLen (c :: t) (r + 1) = rawLen t (r + 1) := by
  simp [rawLen, splitTerm_cons_of_eq_cons hc h, h]

theorem insertIdx_ne_nil {t : List Char} (ht : t ≠ []) (n : Nat) (x : Char) :
    t.insertIdx n x ≠ [] := by
  cases t with
  | nil => exact absurd rfl ht
  | cons a t => cases n <;> simp [List.insertIdx_succ_cons]

theorem rawStart_succ_of_lt {s : List Char} {r : Nat}
    (hr : r < (splitTerm s).length) :
    rawStart s (r + 1) = rawStart s r + rawLen s r + 1 := by
  unfold rawStart rawLen
  rw [List.take_succ, List.map_append, List.sum_append,
    List.getElem?_eq_getElem hr]
  simp
  omega

theorem rawStart_add_rawLen_le (s : List Char) :
    ∀ r : Nat, r < (splitTerm s).length → rawStart s r + rawLen s r ≤ s.length := by
  induction s with
  | nil => intro r hr; simp [splitTerm] at hr
  | cons a t ih =>
    intro r hr
    by_cases ha : a = '\n'
    · subst ha
      cases r with
      | zero => simp [rawStart_zero, rawLen_newline_cons_zero]
      | succ r =>
        rw [splitTerm_newline_cons] at hr
        simp only [List.length_cons] at hr
        have := ih r (by omega)
        rw [rawStart_newline_cons_succ, rawLen_newline_cons_succ]
        simp only [List.length_cons]
        omega
    · cases hsp : splitTerm t with
      | nil =>
        rw [splitTerm_cons_of_eq_nil ha hsp] at hr
        simp at hr
        subst hr
        have ht : t = [] := splitTerm_eq_nil_iff.mp hsp
        subst ht
        simp [rawStart_zero, rawLen, splitTerm_cons_of_eq_nil ha hsp]
      | cons l ls =>
        cases r with
        | zero =>
          have h0 : 0 < (splitTerm t).length := by rw [hsp]; simp
          have := ih 0 h0
          rw [rawStart_zero, rawLen_cons_zero ha hsp]
          rw [rawStart_zero, rawLen, hsp] at this
          simp only [List.getElem?_cons_zero, Option.map_some', Option.getD_some] at this
          simp only [List.length_cons]
          omega
        | succ r =>
          rw [splitTerm_cons_of_eq_cons ha hsp] at hr
          simp only [List.length_cons] at hr
          have hlt : r + 1 < (splitTerm t).length := by rw [hsp]; simp; omega
          have := ih (r + 1) hlt
          rw [rawStart_cons_succ ha hsp, rawLen_cons_succ ha hsp]
          simp only [List.length_cons]
          omega

theorem splitTerm_insertIdx_take (c : Char) :
    ∀ (s : List Char) (r col : Nat), r < (splitTerm s).length → col ≤ rawLen s r →
      (splitTerm (s.insertIdx (rawStart s r + col) c)).take r = (splitTerm s).take r := by
  intro s
  induction s with
  | nil => intro r col hr _; simp [splitTerm] at hr
  | cons a t ih =>
    intro r col hr hcol
    cases r with
    | zero => simp
    | succ r =>
      by_cases ha : a = '\n'
      · subst ha
        rw [rawLen_newline_cons_succ] at hcol
        have hlen : r < (splitTerm t).length := by
          rw [splitTerm_newline_cons] at hr
          simpa using hr
        rw [rawStart_newline_cons_succ,
          (by omega : rawStart t r + 1 + col = rawStart t r + col + 1),
          List.insertIdx_succ_cons, splitTerm_newline_cons, splitTerm_newline_cons,
          List.take_succ_cons, List.take_succ_cons, ih r col hlen hcol]
      · cases hsp : splitTerm t with
        | nil =>
          rw [splitTerm_cons_of_eq_nil ha hsp] at hr
          simp at hr
        | cons l ls =>
          rw [rawLen_cons_succ ha hsp] at hcol
          have hlen : r + 1 < (splitTerm t).length := by
            rw [splitTerm_cons_of_eq_cons ha hsp] at hr
            rw [hsp]
            simpa using hr
          have iht := ih (r + 1) col hlen hcol
          have ht : t ≠ [] := by
            intro h
            rw [h] at hsp
            simp [splitTerm] at hsp
          rw [rawStart_cons_succ ha hsp,
            (by omega : rawStart t (r + 1) + 1 + col = rawStart t (r + 1) + col + 1),
            List.insertIdx_succ_cons]
          cases hsp' : splitTerm (t.insertIdx (rawStart t (r + 1) + col) c) with
          | nil => exact absurd (splitTerm_eq_nil_iff.mp hsp') (insertIdx_ne_nil ht _ _)
          | cons l0 ls' =>
            rw [hsp', hsp] at iht
            simp only [List.take_succ_cons, List.cons.injEq] at iht
            obtain ⟨rfl, htail⟩ := iht
            rw [splitTerm_cons_of_eq_cons ha hsp', splitTerm_cons_of_eq_cons ha hsp]
            simp only [List.take_succ_cons, htail]

theorem splitTerm_insertIdx_nl_get :
    ∀ (s : List Char) (r col : Nat), r < (splitTerm s).length → col ≤ rawLen s r →
      (splitTerm (s.insertIdx (rawStart s r + col) '\n'))[r]? =
        some ((((splitTerm s)[r]?).getD []).take col) := by
  intro s
  induction s with
  | nil => intro r col hr _; simp [splitTerm] at hr
  | cons a t ih =>
    intro r col hr hcol
    by_cases ha : a = '\n'
    · subst ha
      cases r with
      | zero =>
        rw [rawLen_newline_cons_zero] at hcol
        have hc0 : col = 0 := by omega
        subst hc0
        rw [rawStart_zero]
        simp only [Nat.add_zero, List.insertIdx_zero]
        rw [splitTerm_newline_cons, splitTerm_newline_cons]
        simp
      | succ r =>
        rw [rawLen_newline_cons_succ] at hcol
        have hlen : r < (splitTerm t).length := by
          rw [splitTerm_newline_cons] at hr
          simpa using hr
        rw [rawStart_newline_cons_succ,
          (by omega : rawStart t r + 1 + col = rawStart t r + col + 1),
          List.insertIdx_succ_cons, splitTerm_newline_cons, splitTerm_newline_cons]
        simp only [List.getElem?_cons_succ]
        exact ih r col hlen hcol
    · cases hsp : splitTerm t with
      | nil =>
        have ht : t = [] := splitTerm_eq_nil_iff.mp hsp
        subst ht
        have hr0 : r = 0 := by
          rw [splitTerm_cons_of_eq_nil ha hsp] at hr
          simp at hr
          exact hr
        subst hr0
        rw [rawLen, splitTerm_cons_of_eq_nil ha hsp] at hcol
        simp at hcol
        rw [rawStart_zero, splitTerm_cons_of_eq_nil ha hsp]
        match col, hcol with
        | 0, _ =>
          simp only [Nat.add_zero, List.insertIdx_zero]
          rw [splitTerm_newline_cons, splitTerm_cons_of_eq_nil ha hsp]
          simp
        | 1, _ =>
          simp only [Nat.zero_add, List.insertIdx_succ_cons, List.insertIdx_zero]
          rw [splitTerm_cons_of_eq_cons ha (splitTerm_newline_cons [])]
          simp
      | cons l ls =>
        have ht : t ≠ [] := by
          intro h
          rw [h] at hsp
          simp [splitTerm] at hsp
        cases r with
        | zero =>
          rw [rawLen_cons_zero ha hsp] at hcol
          rw [rawStart_zero]
          cases col with
          | zero =>
            simp only [Nat.add_zero, List.insertIdx_zero]
            rw [splitTerm_newline_cons]
            simp
          | succ col =>
            have hlen : 0 < (splitTerm t).length := by rw [hsp]; simp
            have hcol' : col ≤ rawLen t 0 := by
              rw [rawLen, hsp]
              simp
              omega
            have iht := ih 0 col hlen hcol'
            rw [rawStart_zero] at iht
            simp only [Nat.zero_add] at iht
            simp only [Nat.zero_add, List.insertIdx_succ_cons]
            cases hsp' : splitTerm (t.insertIdx col '\n') with
            | nil =>
              rw [hsp'] at iht
              simp at iht
            | cons l0 ls' =>
              rw [hsp', hsp] at iht
              simp only [List.getElem?_cons_zero, Option.map_some', Option.getD_some,
                Option.some.injEq] at iht
              rw [splitTerm_cons_of_eq_cons ha hsp',
                splitTerm_cons_of_eq_cons ha hsp]
              simp only [List.getElem?_cons_zero, Option.map_some', Option.getD_some,
                Option.some.injEq, List.take_succ_cons, List.cons.injEq]
              exact ⟨trivial, iht⟩
        | succ r =>
          rw [rawLen_cons_succ ha hsp] at hcol
          have hlen : r + 1 < (splitTerm t).length := by
            rw [splitTerm_cons_of_eq_cons ha hsp] at hr
            rw [hsp]
            simpa using hr
          have iht := ih (r + 1) col hlen hcol
          rw [rawStart_cons_succ ha hsp,
            (by omega : rawStart t (r + 1) + 1 + col = rawStart t (r + 1) + col + 1),
            List.insertIdx_succ_cons]
          cases hsp' : splitTerm (t.insertIdx (rawStart t (r + 1) + col) '\n') with
          | nil => exact absurd (splitTerm_eq_nil_iff.mp hsp') (insertIdx_ne_nil ht _ _)
          | cons l0 ls' =>
            rw [hsp', hsp] at iht
            simp only [List.getElem?_cons_succ] at iht
            rw [splitTerm_cons_of_eq_cons ha hsp', splitTerm_cons_of_eq_cons ha hsp]
            simpa using iht

theorem splitTerm_insertIdx_nl_next_len :
    ∀ (s : List Char) (r col : Nat), r < (splitTerm s).length → col ≤ rawLen s r →
      rawLen (s.insertIdx (rawStart s r + col) '\n') (r + 1) = rawLen s r - col := by
  intro s
  induction s with
  | nil => intro r col hr _; simp [splitTerm] at hr
  | cons a t ih =>
    intro r col hr hcol
    by_cases ha : a = '\n'
    · subst ha
      cases r with
      | zero =>
        rw [rawLen_newline_cons_zero] at hcol ⊢
        have hc0 : col = 0 := by omega
        subst hc0
        rw [rawStart_zero]
        simp only [Nat.add_zero, List.insertIdx_zero]
        rw [rawLen_newline_cons_succ, rawLen_newline_cons_zero]
      | succ r =>
        rw [rawLen_newline_cons_succ] at hcol ⊢
        have hlen : r < (splitTerm t).length := by
          rw [splitTerm_newline_cons] at hr
          simpa using hr
        rw [rawStart_newline_cons_succ,
          (by omega : rawStart t r + 1 + col = rawStart t r + col + 1),
          List.insertIdx_succ_cons, rawLen_newline_cons_succ]
        exact ih r col hlen hcol
    · cases hsp : splitTerm t with
      | nil =>
        have ht : t = [] := splitTerm_eq_nil_iff.mp hsp
        subst ht
        have hr0 : r = 0 := by
          rw [splitTerm_cons_of_eq_nil ha hsp] at hr
          simp at hr
          exact hr
        subst hr0
        rw [rawLen, splitTerm_cons_of_eq_nil ha hsp] at hcol
        simp at hcol
        rw [rawStart_zero]
        match col, hcol with
        | 0, _ =>
          simp only [Nat.add_zero, List.insertIdx_zero]
          have e1 : splitTerm ['\n', a] = [] :: [[a]] := by
            rw [splitTerm_newline_cons, splitTerm_cons_of_eq_nil ha hsp]
          simp [rawLen, e1, splitTerm_cons_of_eq_nil ha hsp]
        | 1, _ =>
          simp only [Nat.zero_add, List.insertIdx_succ_cons, List.insertIdx_zero]
          have e2 : splitTerm [a, '\n'] = [[a]] :=
            splitTerm_cons_of_eq_cons ha (splitTerm_newline_cons [])
          simp [rawLen, e2, splitTerm_cons_of_eq_nil ha hsp]
      | cons l ls =>
        have ht : t ≠ [] := by
          intro h
          rw [h] at hsp
          simp [splitTerm] at hsp
        cases r with
        | zero =>
          rw [rawLen_cons_zero ha hsp] at hcol ⊢
          rw [rawStart_zero]
          cases col with
          | zero =>
            simp only [Nat.add_zero, List.insertIdx_zero]
            rw [rawLen, splitTerm_newline_cons, splitTerm_cons_of_eq_cons ha hsp]
            simp
          | succ col =>
            have hlen : 0 < (splitTerm t).length := by rw [hsp]; simp
            have hcol' : col ≤ rawLen t 0 := by
              rw [rawLen, hsp]
              simp
              omega
            have iht := ih 0 col hlen hcol'
            rw [rawStart_zero] at iht
            simp only [Nat.zero_add] at iht
            simp only [Nat.zero_add, List.insertIdx_succ_cons]
            cases hsp' : splitTerm (t.insertIdx col '\n') with
            | nil => exact absurd (splitTerm_eq_nil_iff.mp hsp') (insertIdx_ne_nil ht _ _)
            | cons l0 ls' =>
              rw [rawLen_cons_succ ha hsp', iht, rawLen, hsp]
              simp only [List.getElem?_cons_zero, Option.map_some', Option.getD_some]
              omega
        | succ r =>
          rw [rawLen_cons_succ ha hsp] at hcol ⊢
          have hlen : r + 1 < (splitTerm t).length := by
            rw [splitTerm_cons_of_eq_cons ha hsp] at hr
            rw [hsp]
            simpa using hr
          have iht := ih (r + 1) col hlen hcol
          rw [rawStart_cons_succ ha hsp,
            (by omega : rawStart t (r + 1) + 1 + col = rawStart t (r + 1) + col + 1),
            List.insertIdx_succ_cons]
          cases hsp' : splitTerm (t.insertIdx (rawStart t (r + 1) + col) '\n') with
          | nil => exact absurd (splitTerm_eq_nil_iff.mp hsp') (insertIdx_ne_nil ht _ _)
          | cons l0 ls' =>
            rw [rawLen_cons_succ ha hsp', iht]

theorem splitTerm_nil : splitTerm [] = [] := rfl

theorem getLast?_tail_of_cons {a : Char} {t : List Char} {x : Char}
    (htne : t ≠ []) (h : (a :: t).getLast? = some x) : t.getLast? = some x := by
  cases t with
  | nil => exact absurd rfl htne
  | cons b t' => rwa [List.getLast?_cons_cons] at h

theorem splitTerm_sum_of_terminated :
    ∀ s : List Char, (s = [] ∨ s.getLast? = some '\n') →
      ((splitTerm s).map (fun l => l.length + 1)).sum = s.length := by
  intro s
  induction s with
  | nil => intro _; simp [splitTerm_nil]
  | cons a t ih =>
    intro h
    rcases h with h | h
    · simp at h
    · by_cases ht : t = []
      · subst ht
        simp only [List.getLast?_singleton, Option.some.injEq] at h
        subst h
        rw [splitTerm_newline_cons, splitTerm_nil]
        simp [List.length_nil]
      · have hlast : t.getLast? = some '\n' := getLast?_tail_of_cons ht h
        have iht := ih (Or.inr hlast)
        by_cases ha : a = '\n'
        · subst ha
          rw [splitTerm_newline_cons]
          simp only [List.map_cons, List.sum_cons, iht, List.length_cons, List.length_nil]
          omega
        · cases hsp : splitTerm t with
          | nil => exact absurd (splitTerm_eq_nil_iff.mp hsp) ht
          | cons l ls =>
            rw [splitTerm_cons_of_eq_cons ha hsp]
            rw [hsp] at iht
            simp only [List.map_cons, List.sum_cons, List.length_cons] at iht ⊢
            omega

theorem splitTerm_append_terminated (c : Char) :
    ∀ s : List Char, (s = [] ∨ s.getLast? = some '\n') →
      splitTerm (s ++ [c]) = splitTerm s ++ [if c = '\n' then [] else [c]] := by
  intro s
  induction s with
  | nil =>
    intro _
    rw [List.nil_append, splitTerm_nil, List.nil_append]
    by_cases hc : c = '\n'
    · subst hc
      rw [splitTerm_newline_cons, splitTerm_nil, if_pos rfl]
    · rw [splitTerm_cons_of_eq_nil hc splitTerm_nil, if_neg hc]

  | cons a t ih =>
    intro h
    rcases h with h | h
    · simp at h
    · by_cases ht : t = []
      · subst ht
        simp only [List.getLast?_singleton, Option.some.injEq] at h
        subst h
        rw [List.cons_append, List.nil_append, splitTerm_newline_cons,
          splitTerm_newline_cons, splitTerm_nil]
        by_cases hc : c = '\n'
        · subst hc
          rw [splitTerm_newline_cons, splitTerm_nil, if_pos rfl]
          rfl
        · rw [splitTerm_cons_of_eq_nil hc splitTerm_nil, if_neg hc]
          rfl
      · have hlast : t.getLast? = some '\n' := getLast?_tail_of_cons ht h
        have iht := ih (Or.inr hlast)
        by_cases ha : a = '\n'
        · subst ha
          rw [List.cons_append, splitTerm_newline_cons, splitTerm_newline_cons, iht]
          simp
        · cases hsp : splitTerm t with
          | nil => exact absurd (splitTerm_eq_nil_iff.mp hsp) ht
          | cons l ls =>
            rw [hsp] at iht
            rw [List.cons_append,
              splitTerm_cons_of_eq_cons ha (iht.trans (by rfl)),
              splitTerm_cons_of_eq_cons ha hsp]
            simp

theorem rawStart_splitTerm_length (s : List Char)
    (h : s = [] ∨ s.getLast? = some '\n') :
    rawStart s ((splitTerm s).length) = s.length := by
  unfold rawStart
  rw [List.take_length]
  exact splitTerm_sum_of_terminated s h

theorem rawStart_congr_take {s s' : List Char} {r : Nat}
    (h : (splitTerm s').take r = (splitTerm s).take r) :
    rawStart s' r = rawStart s r := by
  unfold rawStart
  rw [h]

theorem lineStart_congr_take {s s' : List Char} {r : Nat}
    (h : (splitTerm s').take r = (splitTerm s).take r) :
    lineStart s' r = lineStart s r := by
  unfold lineStart lines
  rw [← List.map_take, ← List.map_take, h]

theorem lineStart_eq_rawStart {s : List Char} (h : '\x0d' ∉ s) (r : Nat) :
    lineStart s r = rawStart s r := by
  unfold lineStart rawStart
  rw [lines_eq_splitTerm h]

theorem lineLen_eq_rawLen {s : List Char} (h : '\x0d' ∉ s) (r : Nat) :
    lineLen s r = rawLen s r := by
  unfold lineLen rawLen
  rw [lines_eq_splitTerm h]

theorem no_cr_insertIdx {s : List Char} (h : '\x0d' ∉ s) {i : Nat}
    (hi : i ≤ s.length) : '\x0d' ∉ s.insertIdx i '\n' := by
  intro hmem
  rcases (List.mem_insertIdx hi).mp hmem with h1 | h1
  · exact absurd h1 (by decide)
  · exact h h1

theorem getBang_insertIdx_self (s : List Char) (i : Nat) (c : Char)
    (hi : i ≤ s.length) : (s.insertIdx i c)[i]! = c := by
  have hlt : i < (s.insertIdx i c).length := by
    rw [List.length_insertIdx i s hi]
    omega
  apply List.getElem!_of_getElem?
  rw [List.getElem?_eq_getElem hlt]
  exact congrArg some (List.getElem_insertIdx_self s c i hi)

theorem row_length_eq_lineLen (e : Editor) :
    row_length e = lineLen e.contents (e.display_position.row + e.cursor.row) := rfl

theorem insert_remove_interior (path : Option (List Char)) (s : List Char)
    (col row : Nat) (ds : DisplaySize) (dcol drow : Nat) (mode : EditorMode)
    (c : Char) (hCR : '\x0d' ∉ s)
    (hcol1 : col + 1 ≤ 65535) (hrow1 : row + 1 ≤ 65535)
    (hr : row + drow < (splitTerm s).length)
    (hcol : col ≤ rawLen s (row + drow)) :
    (insert ⟨path, s, ⟨col, row⟩, ds, ⟨dcol, drow⟩, mode⟩ c).bind remove =
      some ⟨path, s, ⟨col, row⟩, ds, ⟨dcol, drow⟩, mode⟩ := by
  have hMi := rawStart_add_rawLen_le s (row + drow) hr
  have hA1 : rawStart s (row + drow) + col ≤ s.length := by omega
  have hLS := lineStart_eq_rawStart hCR (row + drow)
  have hCi : cursor_index ⟨path, s, ⟨col, row⟩, ds, ⟨dcol, drow⟩, mode⟩ =
      lineStart s (row + drow) + col := rfl
  have hle : cursor_index ⟨path, s, ⟨col, row⟩, ds, ⟨dcol, drow⟩, mode⟩ ≤ s.length := by
    rw [hCi, hLS]
    exact hA1
  have hidx : cursor_index ⟨path, s, ⟨col, row⟩, ds, ⟨dcol, drow⟩, mode⟩ =
      rawStart s (row + drow) + col := by rw [hCi, hLS]
  have hlenx : ∀ x : Char,
      (s.insertIdx (rawStart s (row + drow) + col) x).length = s.length + 1 :=
    fun x => List.length_insertIdx _ _ hA1
  by_cases hc : c = '\n'
  · subst hc
    have hCR' : '\x0d' ∉ s.insertIdx (rawStart s (row + drow) + col) '\n' :=
      no_cr_insertIdx hCR hA1
    have hMa := splitTerm_insertIdx_take '\n' s (row + drow) col hr hcol
    have hMb := splitTerm_insertIdx_nl_get s (row + drow) col hr hcol
    have hMc := splitTerm_insertIdx_nl_next_len s (row + drow) col hr hcol
    have hr' : row + drow <
        (splitTerm (s.insertIdx (rawStart s (row + drow) + col) '\n')).length := by
      by_contra hcon
      rw [List.getElem?_eq_none (by omega)] at hMb
      cases hMb
    have hgetlen : (((splitTerm s)[row + drow]?).getD []).length = rawLen s (row + drow) := by
      unfold rawLen
      cases (splitTerm s)[row + drow]? <;> simp
    have hrawlen' :
        rawLen (s.insertIdx (rawStart s (row + drow) + col) '\n') (row + drow) = col := by
      unfold rawLen
      rw [hMb]
      simp only [Option.map_some', Option.getD_some, List.length_take]
      rw [hgetlen]
      exact Nat.min_eq_left hcol
    have hLS' : lineStart (s.insertIdx (rawStart s (row + drow) + col) '\n')
        (row + drow + 1) = rawStart s (row + drow) + col + 1 := by
      rw [lineStart_eq_rawStart hCR', rawStart_succ_of_lt hr',
        rawStart_congr_take hMa, hrawlen']
    have hadd : u16add row 1 = some (row + 1) := by
      simp only [u16add]
      rw [if_pos hrow1]
    have hIns : insert ⟨path, s, ⟨col, row⟩, ds, ⟨dcol, drow⟩, mode⟩ '\n' =
        some ⟨path, s.insertIdx (rawStart s (row + drow) + col) '\n', ⟨0, row + 1⟩,
          ds, ⟨dcol, drow⟩, mode⟩ := by
      unfold insert
      simp only
      rw [if_pos hle, if_true, hadd, hidx]
    rw [hIns]
    simp only [Option.some_bind]
    have hCi' : cursor_index ⟨path, s.insertIdx (rawStart s (row + drow) + col) '\n',
        ⟨0, row + 1⟩, ds, ⟨dcol, drow⟩, mode⟩ = rawStart s (row + drow) + col + 1 := by
      have h1 : cursor_index ⟨path, s.insertIdx (rawStart s (row + drow) + col) '\n',
          ⟨0, row + 1⟩, ds, ⟨dcol, drow⟩, mode⟩ =
          lineStart (s.insertIdx (rawStart s (row + drow) + col) '\n')
            (row + 1 + drow) + 0 := rfl
      rw [h1, Nat.add_zero, (by omega : row + 1 + drow = row + drow + 1), hLS']
    have hsub : checkedSub (cursor_index ⟨path,
        s.insertIdx (rawStart s (row + drow) + col) '\n', ⟨0, row + 1⟩, ds,
        ⟨dcol, drow⟩, mode⟩) 1 = some (rawStart s (row + drow) + col) := by
      rw [hCi']
      simp [checkedSub]
    have hltidx : rawStart s (row + drow) + col <
        (s.insertIdx (rawStart s (row + drow) + col) '\n').length := by
      rw [hlenx '\n']
      omega
    have hget : (s.insertIdx (rawStart s (row + drow) + col) '\n')[rawStart s
        (row + drow) + col]! = '\n' := getBang_insertIdx_self s _ '\n' hA1
    have hcur : lineLen (s.insertIdx (rawStart s (row + drow) + col) '\n')
        (drow + (row + 1)) = rawLen s (row + drow) - col := by
      rw [(by omega : drow + (row + 1) = row + drow + 1), lineLen_eq_rawLen hCR', hMc]
    have hsubrow : checkedSub (row + 1) 1 = some row := by
      simp [checkedSub]
    have hr2 : lineLen s (drow + row) = rawLen s (row + drow) := by
      rw [(by omega : drow + row = row + drow), lineLen_eq_rawLen hCR]
    have hsubfinal : checkedSub (rawLen s (row + drow))
        (rawLen s (row + drow) - col) = some col := by
      unfold checkedSub
      rw [if_pos (by omega)]
      congr 1
      omega
    have hclamp : u16clamp col = col := by
      unfold u16clamp
      exact Nat.min_eq_left (by omega)
    unfold remove
    rw [hsub]
    simp only
    rw [dif_pos hltidx]
    simp only [hget, if_pos rfl, row_length_eq_lineLen, List.eraseIdx_insertIdx]
    rw [hcur, hsubrow]
    simp only
    rw [hr2, hsubfinal]
    simp only [hclamp]
    rw [if_true]
  · have haddc : u16add col 1 = some (col + 1) := by
      simp only [u16add]
      rw [if_pos hcol1]
    have hIns : insert ⟨path, s, ⟨col, row⟩, ds, ⟨dcol, drow⟩, mode⟩ c =
        some ⟨path, s.insertIdx (rawStart s (row + drow) + col) c, ⟨col + 1, row⟩,
          ds, ⟨dcol, drow⟩, mode⟩ := by
      unfold insert
      simp only
      rw [if_pos hle, if_neg hc, haddc, hidx]
    rw [hIns]
    simp only [Option.some_bind]
    have hMa := splitTerm_insertIdx_take c s (row + drow) col hr hcol
    have hCi' : cursor_index ⟨path, s.insertIdx (rawStart s (row + drow) + col) c,
        ⟨col + 1, row⟩, ds, ⟨dcol, drow⟩, mode⟩ = rawStart s (row + drow) + col + 1 := by
      have h1 : cursor_index ⟨path, s.insertIdx (rawStart s (row + drow) + col) c,
          ⟨col + 1, row⟩, ds, ⟨dcol, drow⟩, mode⟩ =
          lineStart (s.insertIdx (rawStart s (row + drow) + col) c)
            (row + drow) + (col + 1) := rfl
      rw [h1, lineStart_congr_take hMa, hLS]
      omega
    have hsub : checkedSub (cursor_index ⟨path,
        s.insertIdx (rawStart s (row + drow) + col) c, ⟨col + 1, row⟩, ds,
        ⟨dcol, drow⟩, mode⟩) 1 = some (rawStart s (row + drow) + col) := by
      rw [hCi']
      simp [checkedSub]
    have hltidx : rawStart s (row + drow) + col <
        (s.insertIdx (rawStart s (row + drow) + col) c).length := by
      rw [hlenx c]
      omega
    have hget : (s.insertIdx (rawStart s (row + drow) + col) c)[rawStart s
        (row + drow) + col]! = c := getBang_insertIdx_self s _ c hA1
    have hsubcol : checkedSub (col + 1) 1 = some col := by
      simp [checkedSub]
    unfold remove
    rw [hsub]
    simp only
    rw [dif_pos hltidx]
    simp only [hget, if_neg hc, List.eraseIdx_insertIdx]
    rw [hsubcol]

theorem insert_remove_append (path : Option (List Char)) (s : List Char)
    (row : Nat) (ds : DisplaySize) (dcol drow : Nat) (mode : EditorMode)
    (c : Char) (hCR : '\x0d' ∉ s) (hrow1 : row + 1 ≤ 65535)
    (hterm : s = [] ∨ s.getLast? = some '\n')
    (hrr : row + drow = (splitTerm s).length) :
    (insert ⟨path, s, ⟨0, row⟩, ds, ⟨dcol, drow⟩, mode⟩ c).bind remove =
      some ⟨path, s, ⟨0, row⟩, ds, ⟨dcol, drow⟩, mode⟩ := by
  have hMe := splitTerm_append_terminated c s hterm
  have hB1 : rawStart s (row + drow) = s.length := by
    rw [hrr]
    exact rawStart_splitTerm_length s hterm
  have hCi : cursor_index ⟨path, s, ⟨0, row⟩, ds, ⟨dcol, drow⟩, mode⟩ = s.length := by
    have h0 : cursor_index ⟨path, s, ⟨0, row⟩, ds, ⟨dcol, drow⟩, mode⟩ =
        lineStart s (row + drow) + 0 := rfl
    rw [h0, Nat.add_zero, lineStart_eq_rawStart hCR, hB1]
  have hle : cursor_index ⟨path, s, ⟨0, row⟩, ds, ⟨dcol, drow⟩, mode⟩ ≤ s.length := by
    rw [hCi]
  have happlen : (s ++ [c]).length = s.length + 1 := by simp
  have herase : (s ++ [c]).eraseIdx s.length = s := by
    rw [← List.insertIdx_length_self]
    exact List.eraseIdx_insertIdx _ _
  have hget : (s ++ [c])[s.length]! = c :=
    List.getElem!_of_getElem? (List.getElem?_concat_length s c)
  by_cases hc : c = '\n'
  · subst hc
    have hCR'' : '\x0d' ∉ s ++ ['\n'] := by
      intro hmem
      rcases List.mem_append.mp hmem with h1 | h1
      · exact hCR h1
      · simp at h1
    have hsplit' : splitTerm (s ++ ['\n']) = splitTerm s ++ [[]] := by
      rw [hMe, if_pos rfl]
    have hadd : u16add row 1 = some (row + 1) := by
      simp only [u16add]
      rw [if_pos hrow1]
    have hIns : insert ⟨path, s, ⟨0, row⟩, ds, ⟨dcol, drow⟩, mode⟩ '\n' =
        some ⟨path, s ++ ['\n'], ⟨0, row + 1⟩, ds, ⟨dcol, drow⟩, mode⟩ := by
      unfold insert
      simp only
      rw [if_pos hle, if_true, hadd, hCi, List.insertIdx_length_self]
    rw [hIns]
    simp only [Option.some_bind]
    have hraw' : rawStart (s ++ ['\n']) (row + 1 + drow) = s.length + 1 := by
      unfold rawStart
      rw [hsplit', (by omega : row + 1 + drow = (row + drow) + 1), hrr,
        List.take_of_length_le (by simp)]
      rw [List.map_append, List.sum_append, splitTerm_sum_of_terminated s hterm]
      simp
    have hCi' : cursor_index ⟨path, s ++ ['\n'], ⟨0, row + 1⟩, ds,
        ⟨dcol, drow⟩, mode⟩ = s.length + 1 := by
      have h0 : cursor_index ⟨path, s ++ ['\n'], ⟨0, row + 1⟩, ds,
          ⟨dcol, drow⟩, mode⟩ = lineStart (s ++ ['\n']) (row + 1 + drow) + 0 := rfl
      rw [h0, Nat.add_zero, lineStart_eq_rawStart hCR'', hraw']
    have hsub : checkedSub (cursor_index ⟨path, s ++ ['\n'], ⟨0, row + 1⟩, ds,
        ⟨dcol, drow⟩, mode⟩) 1 = some s.length := by
      rw [hCi']
      simp [checkedSub]
    have hltidx : s.length < (s ++ ['\n']).length := by
      rw [happlen]
      omega
    have hcur : lineLen (s ++ ['\n']) (drow + (row + 1)) = 0 := by
      rw [(by omega : drow + (row + 1) = row + drow + 1), lineLen_eq_rawLen hCR'']
      unfold rawLen
      rw [List.getElem?_eq_none (by rw [hsplit']; simp; omega)]
      rfl
    have hsubrow : checkedSub (row + 1) 1 = some row := by
      simp [checkedSub]
    have hr2 : lineLen s (drow + row) = 0 := by
      rw [(by omega : drow + row = row + drow), lineLen_eq_rawLen hCR]
      unfold rawLen
      rw [List.getElem?_eq_none (by omega)]
      rfl
    have hsubfinal : checkedSub 0 0 = some 0 := by decide
    unfold remove
    rw [hsub]
    simp only
    rw [dif_pos hltidx]
    simp only [hget, row_length_eq_lineLen, herase]
    rw [hcur, hsubrow]
    simp only
    rw [hr2, hsubfinal]
    have hclamp0 : u16clamp 0 = 0 := by decide
    simp only [hclamp0]
    rw [if_true]
  · have haddc : u16add 0 1 = some 1 := by decide
    have hIns : insert ⟨path, s, ⟨0, row⟩, ds, ⟨dcol, drow⟩, mode⟩ c =
        some ⟨path, s ++ [c], ⟨1, row⟩, ds, ⟨dcol, drow⟩, mode⟩ := by
      unfold insert
      simp only
      rw [if_pos hle, if_neg hc, haddc, hCi, List.insertIdx_length_self]
    rw [hIns]
    simp only [Option.some_bind]
    have htake : (splitTerm (s ++ [c])).take (row + drow) =
        (splitTerm s).take (row + drow) := by
      rw [hMe, if_neg hc, hrr, List.take_left, List.take_length]
    have hCi' : cursor_index ⟨path, s ++ [c], ⟨1, row⟩, ds,
        ⟨dcol, drow⟩, mode⟩ = s.length + 1 := by
      have h0 : cursor_index ⟨path, s ++ [c], ⟨1, row⟩, ds, ⟨dcol, drow⟩, mode⟩ =
          lineStart (s ++ [c]) (row + drow) + 1 := rfl
      rw [h0, lineStart_congr_take htake, lineStart_eq_rawStart hCR, hB1]
    have hsub : checkedSub (cursor_index ⟨path, s ++ [c], ⟨1, row⟩, ds,
        ⟨dcol, drow⟩, mode⟩) 1 = some s.length := by
      rw [hCi']
      simp [checkedSub]
    have hltidx : s.length < (s ++ [c]).length := by
      rw [happlen]
      omega
    have hsubcol : checkedSub 1 1 = some 0 := by decide
    unfold remove
    rw [hsub]
    simp only
    rw [dif_pos hltidx]
    simp only [hget, List.eraseIdx_insertIdx, herase]
    rw [if_neg hc, hsubcol]

/-- C4 counterexample: the claim fails on a reachable state.  Opening a file
reading `"ab\r\ncd"` (CRLF line ending) and pressing Down yields `c4ex`;
there, inserting `'x'` and immediately calling `remove` completes without
restoring the document: the buffer ends up as `"ab\rx\nd"` (the `remove`
erased the `'c'`, not the inserted character), because `cursor_index`
arithmetic uses CR-stripped line lengths. -/
theorem c4_counterexample :
    move_cursor (Editor.new ['a', 'b', '\x0d', '\n', 'c', 'd']) CursorMovement.Down =
      some c4ex ∧
    (insert c4ex 'x').bind remove = some c4ex' ∧
    c4ex'.contents ≠ c4ex.contents := by
  decide

/-- C4 amended: insert-then-remove is the identity on the whole editor state
for every cursor-valid state — document free of carriage returns, cursor
coordinates with `u16` headroom, and the cursor addressing either a position
within an existing line or the end of a newline-terminated (or empty)
document. -/
theorem c4_amended (e : Editor) (c : Char) (h : ValidCursor e) :
    (insert e c).bind remove = some e := by
  obtain ⟨hCR, hcol1, hrow1, hpos⟩ := h
  obtain ⟨path, s, ⟨col, row⟩, ds, ⟨dcol, drow⟩, mode⟩ := e
  dsimp only at hCR hcol1 hrow1 hpos
  rcases hpos with ⟨hlt, hcl⟩ | ⟨heq, hc0, hterm⟩
  · have hlt' : row + drow < (splitTerm s).length := by
      rwa [lines_eq_splitTerm hCR] at hlt
    have hcl' : col ≤ rawLen s (row + drow) := by
      rwa [lineLen_eq_rawLen hCR] at hcl
    exact insert_remove_interior path s col row ds dcol drow mode c hCR hcol1 hrow1
      hlt' hcl'
  · have heq' : row + drow = (splitTerm s).length := by
      rwa [lines_eq_splitTerm hCR] at heq
    subst hc0
    exact insert_remove_append path s row ds dcol drow mode c hCR hrow1 hterm heq'

/-- Witness for the amended C4 at a concrete input: on `"ab\ncd"` with the
cursor at column 1 of the first line, inserting a newline and removing it
restores the editor exactly. -/
theorem c4_witness :
    ValidCursor c4wE ∧ (insert c4wE '\n').bind remove = some c4wE :=
  ⟨by decide, c4_amended c4wE '\n' (by decide)⟩

end Te
